import Mathlib

/-!
Verification of the data-transformation core of the `agoda` repository
(`src/HotelBookingDashboard.tsx`): the functions `getAggregatedValue` and
`transformData`, together with the lodash helpers (`get`, `groupBy`) and the
JavaScript runtime behaviours they rely on (number semantics with `NaN` and
signed infinities, `??`/truthiness, `Object.entries` own-property ordering,
stable `Array.prototype.sort`).

Modelling conventions:
* JavaScript numbers are modelled by `JNum`: exact rationals extended with
  `NaN`, `+Infinity`, `-Infinity`.  IEEE-754 rounding is not modelled; every
  behaviour the development relies on (the algebra of `NaN`/infinities,
  division by zero, truthiness) is exact and rounding-independent.
* Records are the TypeScript `Booking` interface, which is a closed shape;
  `lodash.get` is therefore resolved path-by-path against that shape.
* `lodash.groupBy` builds a plain JS object by scanning the input once and
  pushing each record onto the bucket of its (string-coerced) key; the model
  keeps the buckets as an association list in property-creation order.
  `Object.entries` then enumerates own properties in the ECMAScript order:
  keys that are canonical array indices first, in ascending numeric order,
  followed by the remaining string keys in creation order.
-/

/-- A JavaScript number: `NaN`, `+Infinity`, `-Infinity`, or a finite value
(modelled as an exact rational; rounding is out of scope). -/
inductive JNum where
  | nan
  | posInf
  | negInf
  | real (q : ℚ)
deriving DecidableEq, Repr

namespace JNum

/-- JS addition (`a + b` on numbers): `NaN` absorbs, opposite infinities give
`NaN`, an infinity absorbs finite values. -/
def jadd : JNum → JNum → JNum
  | nan, _ => nan
  | _, nan => nan
  | posInf, negInf => nan
  | negInf, posInf => nan
  | posInf, _ => posInf
  | _, posInf => posInf
  | negInf, _ => negInf
  | _, negInf => negInf
  | real a, real b => real (a + b)

/-- JS unary minus on numbers. -/
def jneg : JNum → JNum
  | nan => nan
  | posInf => negInf
  | negInf => posInf
  | real q => real (-q)

/-- JS subtraction `a - b`. -/
def jsub (a b : JNum) : JNum := jadd a (jneg b)

/-- JS division of a number by a nonnegative integer (the only division the
source performs: `sum / values.length`).  Division by `0` follows JS:
`0/0 = NaN`, `q/0 = ±Infinity` by the sign of `q`, `±Infinity/0 = ±Infinity`. -/
def jdivNat : JNum → Nat → JNum
  | nan, _ => nan
  | posInf, _ => posInf
  | negInf, _ => negInf
  | real q, 0 => if q = 0 then nan else if 0 < q then posInf else negInf
  | real q, (n+1) => real (q / (n+1 : ℚ))

/-- Binary `Math.min`: `NaN` absorbs; otherwise the smaller value with
`-Infinity < finite < +Infinity`. -/
def jmin2 : JNum → JNum → JNum
  | nan, _ => nan
  | _, nan => nan
  | negInf, _ => negInf
  | _, negInf => negInf
  | posInf, b => b
  | a, posInf => a
  | real a, real b => real (min a b)

/-- Binary `Math.max`: `NaN` absorbs; otherwise the larger value. -/
def jmax2 : JNum → JNum → JNum
  | nan, _ => nan
  | _, nan => nan
  | posInf, _ => posInf
  | _, posInf => posInf
  | negInf, b => b
  | a, negInf => a
  | real a, real b => real (max a b)

/-- JS truthiness of a number: `0` and `NaN` are falsy, every other number
(infinities included) is truthy. -/
def jtruthy : JNum → Bool
  | nan => false
  | posInf => true
  | negInf => true
  | real q => q != 0

/-- Whether the number is finite (neither `NaN` nor an infinity). -/
def isReal : JNum → Bool
  | real _ => true
  | _ => false

/-- The rational value of a finite `JNum` (junk value `0` otherwise). -/
def toQ : JNum → ℚ
  | real q => q
  | _ => 0

/-- JS `ToString` on a number, as used when a number becomes an object
property key.  Integral values print in decimal exactly as JS does; for a
non-integral rational the model prints `num/den` (JS prints the shortest
decimal form of the double — no group key in this development, nor in the
repository's data, is non-integral, and no theorem below depends on that
case). -/
def jnumToString : JNum → String
  | nan => "NaN"
  | posInf => "Infinity"
  | negInf => "-Infinity"
  | real q => if q.den = 1 then toString q.num else toString q.num ++ "/" ++ toString q.den

/-- Strict JS comparison `value !== 0` for a number (used by the zero filter
in `getAggregatedValue`): true unless the value is exactly the number `0`.
`NaN !== 0` is true. -/
def jneZero (v : JNum) : Bool := v != real 0

/-- True when the comparator result is strictly positive.  Per the ECMAScript
`SortCompare` step, a `NaN` comparator result is treated as `+0`, hence not
positive. -/
def jposCmp : JNum → Bool
  | posInf => true
  | real q => 0 < q
  | _ => false

end JNum

/-- A value produced by `lodash.get` on a `Booking`: a number, a string, the
nested `location` object, or `undefined` (missing path). -/
inductive JSVal where
  | num (n : JNum)
  | str (s : String)
  | object
  | undefined
deriving DecidableEq, Repr

/-- The nested `location` object of the `Booking` interface. -/
structure Location where
  city : String
  country : String
deriving DecidableEq, Repr

/-- The TypeScript `Booking` interface: `id`, `category`, nested `location`,
`price` (always present), and optional `nights` and `passengers`. -/
structure Booking where
  id : Int
  category : String
  location : Location
  price : JNum
  nights : Option JNum
  passengers : Option JNum
deriving DecidableEq, Repr

/-- `lodash.get(booking, path)`: resolves a (possibly dotted) field path
against the closed `Booking` shape, returning `undefined` when the path is
absent (an absent optional field, or any path outside the interface). -/
def jsGet (b : Booking) : String → JSVal
  | "id" => .num (.real b.id)
  | "category" => .str b.category
  | "location" => .object
  | "location.city" => .str b.location.city
  | "location.country" => .str b.location.country
  | "price" => .num b.price
  | "nights" => match b.nights with | some n => .num n | none => .undefined
  | "passengers" => match b.passengers with | some n => .num n | none => .undefined
  | _ => .undefined

/-- `get(item, field) ?? 0` / `get(item, field, 0)`, viewed as a number: the
field's numeric value, with `0` substituted for a missing path.  In the
source this numeric view is only ever taken of the numeric fields `price`,
`nights`, `passengers` (the aggregations mapping and `sortBy.field` are
restricted to those names); a path resolving to a string or object never
reaches the arithmetic, so the model lets it coincide with the default `0`. -/
def numGet (b : Booking) (field : String) : JNum :=
  match jsGet b field with
  | .num n => n
  | _ => .real 0

/-- String coercion applied when a value becomes an object property key
(`ToPropertyKey`): strings unchanged, numbers via number-`ToString`,
`undefined` coerces to the string `"undefined"`, plain objects to
`"[object Object]"`. -/
def jsToKeyString : JSVal → String
  | .num n => n.jnumToString
  | .str s => s
  | .object => "[object Object]"
  | .undefined => "undefined"

/-- The grouping key of a record for a group-by path: the string coercion of
`get(record, path)`. -/
def jsKeyOf (g : String) (b : Booking) : String := jsToKeyString (jsGet b g)

/-- The five aggregation kinds accepted by `getAggregatedValue`. -/
inductive AggKind where
  | sum
  | avg
  | min
  | max
  | count
deriving DecidableEq, Repr

/-- The value list built at the top of `getAggregatedValue`:
`items.map(item => get(item, field) ?? 0).filter(value => value !== 0)`. -/
def aggValues (items : List Booking) (field : String) : List JNum :=
  (items.map fun item => numGet item field).filter JNum.jneZero

/-- `getAggregatedValue(items, field, aggregation)`: extract the field's
values with default `0`, drop the zeros, then reduce.  `sum` is
`reduce((a,b)=>a+b, 0)`; `avg` divides that sum by the remaining count;
`min`/`max` are `Math.min(...values)`/`Math.max(...values)` (identities
`+Infinity`/`-Infinity` on the empty spread); `count` is the remaining
length. -/
def getAggregatedValue (items : List Booking) (field : String) (aggregation : AggKind) : JNum :=
  let values := aggValues items field
  match aggregation with
  | .sum => values.foldl JNum.jadd (.real 0)
  | .avg => (values.foldl JNum.jadd (.real 0)).jdivNat values.length
  | .min => values.foldl JNum.jmin2 .posInf
  | .max => values.foldl JNum.jmax2 .negInf
  | .count => .real values.length

/-- One push step of `lodash.groupBy`: append the record to the bucket of its
key if that key was already seen, otherwise create the bucket at the end
(JS object property creation order). -/
def addToGroup {α : Type} (k : String) (b : α) :
    List (String × List α) → List (String × List α)
  | [] => [(k, [b])]
  | (k0, bs) :: rest =>
    if k0 = k then (k0, bs ++ [b]) :: rest else (k0, bs) :: addToGroup k b rest

/-- `lodash.groupBy(arr, key)`: scan the input once, pushing each record onto
the bucket of its key; buckets are kept in the order their keys were first
encountered (JS plain-object property creation order). -/
def lGroupBy {α : Type} (key : α → String) (arr : List α) : List (String × List α) :=
  arr.foldl (fun acc b => addToGroup (key b) b acc) []

/-- The keys of the input in the order they are first encountered scanning
left to right (each key once). -/
def firstSeenKeys {α : Type} (key : α → String) : List α → List String
  | [] => []
  | b :: bs => key b :: (firstSeenKeys key bs).filter (fun k => k ≠ key b)

/-- Numeric value of a list of decimal digit characters. -/
def natOfDigits (cs : List Char) : Nat :=
  cs.foldl (fun n c => 10 * n + (c.toNat - 48)) 0

/-- ECMAScript array-index property key: a canonical decimal representation
(no leading zero except `"0"` itself) of an integer `n` with
`0 ≤ n < 2^32 - 1`. -/
def isArrayIndexStr (s : String) : Bool :=
  let cs := s.data
  (!cs.isEmpty) && cs.all (fun c => c.isDigit) &&
    (cs = ['0'] || cs.head? != some '0') && natOfDigits cs < 2 ^ 32 - 1

/-- Numeric value of an entry's key, used to order array-index keys. -/
def keyIndexVal {α : Type} (p : String × α) : Nat := natOfDigits p.1.data

/-- `Object.entries` enumeration order on a plain JS object whose properties
were created in the given order: array-index keys first, in ascending numeric
order, then the remaining string keys in creation order. -/
def jsEntriesOrder {α : Type} (l : List (String × α)) : List (String × α) :=
  (l.filter fun p => isArrayIndexStr p.1).insertionSort
      (fun p q => keyIndexVal p ≤ keyIndexVal q)
    ++ l.filter fun p => !isArrayIndexStr p.1

/-- The `order` half of `sortBy`. -/
inductive SortOrder where
  | asc
  | desc
deriving DecidableEq, Repr

/-- The `sortBy` option: a field name and a direction. -/
structure SortBySpec where
  field : String
  order : SortOrder
deriving DecidableEq, Repr

/-- The sort comparator of `transformData`:
`asc ? get(a, f, 0) - get(b, f, 0) : get(b, f, 0) - get(a, f, 0)`. -/
def jsCompare (sb : SortBySpec) (a b : Booking) : JNum :=
  match sb.order with
  | .asc => (numGet a sb.field).jsub (numGet b sb.field)
  | .desc => (numGet b sb.field).jsub (numGet a sb.field)

/-- `a` may stay before `b` under the comparator: the comparator result is
not strictly positive (ECMAScript `SortCompare` treats a `NaN` result as
`+0`, hence as a tie). -/
def sortBefore (sb : SortBySpec) (a b : Booking) : Prop :=
  JNum.jposCmp (jsCompare sb a b) = false

instance (sb : SortBySpec) : DecidableRel (sortBefore sb) := fun a b => by
  unfold sortBefore; infer_instance

/-- `items.sort(comparator)`.  `Array.prototype.sort` is a stable sort; on a
consistent comparator every stable sort produces the same list (and on an
inconsistent one ECMAScript leaves the order implementation-defined), so the
model fixes the stable insertion sort. -/
def jsSortItems (sb : SortBySpec) (items : List Booking) : List Booking :=
  items.insertionSort (sortBefore sb)

/-- The `groupBy` option: a single field path or a list of field paths. -/
inductive GroupByArg where
  | one (g : String)
  | many (gs : List String)
deriving DecidableEq, Repr

/-- `typeof groupBy === 'string' ? [groupBy] : groupBy`. -/
def normalizeGroupBy : GroupByArg → List String
  | .one g => [g]
  | .many gs => gs

/-- The options argument of `transformData`.  `aggregations` is a JS object
(keys distinct), modelled as an association list. -/
structure TransformOptions where
  groupBy : GroupByArg
  aggregations : List (String × AggKind)
  sortBy : SortBySpec
deriving DecidableEq, Repr

/-- `aggregations.f ? getAggregatedValue(items, f, aggregations.f) : 0`
(each of the five aggregation-kind strings is truthy). -/
def aggFor (aggs : List (String × AggKind)) (items : List Booking) (field : String) : JNum :=
  match aggs.lookup field with
  | some k => getAggregatedValue items field k
  | none => .real 0

/-- The `_aggregations` object of one result entry: each of the three fields
`price`, `nights`, `passengers` is included exactly when its computed value
is truthy, in that fixed order. -/
def buildAggregates (aggs : List (String × AggKind)) (items : List Booking) :
    List (String × JNum) :=
  let price := aggFor aggs items "price"
  let nights := aggFor aggs items "nights"
  let passengers := aggFor aggs items "passengers"
  (if price.jtruthy then [("price", price)] else []) ++
    (if nights.jtruthy then [("nights", nights)] else []) ++
      (if passengers.jtruthy then [("passengers", passengers)] else [])

/-- One element of the result list: the group-by field name carried as data
(the source stores the key under a dynamic property name), the bucket's key,
the aggregates object, the sorted bucket, and its length. -/
structure ResultEntry where
  groupField : String
  key : String
  aggregates : List (String × JNum)
  items : List Booking
  count : Nat
deriving DecidableEq, Repr

/-- Assemble the result entry of one bucket (`key`, bucket) for group-by
path `g`: aggregates are computed from the bucket, the bucket is sorted in
place, and `count` reads the sorted array's length. -/
def mkEntry (opts : TransformOptions) (g : String) (p : String × List Booking) : ResultEntry :=
  { groupField := g
    key := p.1
    aggregates := buildAggregates opts.aggregations p.2
    items := jsSortItems opts.sortBy p.2
    count := (jsSortItems opts.sortBy p.2).length }

/-- The inner loop of `transformData` for one group-by path: group the whole
input by the path's string key, enumerate the buckets in `Object.entries`
order, and assemble one result entry per bucket. -/
def pathEntries (opts : TransformOptions) (arr : List Booking) (g : String) : List ResultEntry :=
  (jsEntriesOrder (lGroupBy (jsKeyOf g) arr)).map (mkEntry opts g)

/-- `transformData(arr, options)`: normalize `groupBy` to a list of paths and
concatenate the entries produced for each path in order. -/
def transformData (arr : List Booking) (opts : TransformOptions) : List ResultEntry :=
  (normalizeGroupBy opts.groupBy).flatMap (pathEntries opts arr)

/-- The ordering that the source's comparator induces on records whose sort
key is a finite number: compare the key values, ascending or descending per
`sortBy.order`. -/
def sortLeKey (sb : SortBySpec) (a b : Booking) : Prop :=
  match sb.order with
  | .asc => (numGet a sb.field).toQ ≤ (numGet b sb.field).toQ
  | .desc => (numGet b sb.field).toQ ≤ (numGet a sb.field).toQ

instance (sb : SortBySpec) : DecidableRel (sortLeKey sb) := fun a b => by
  unfold sortLeKey
  cases sb.order <;> infer_instance

/-- A record whose `price` is the genuine number `0` (claim C1's literal). -/
def c1recZero : Booking :=
  { id := 1, category := "Hotel", location := { city := "X", country := "Y" },
    price := .real 0, nights := none, passengers := none }

/-- A record whose `price` is `10` (claim C1's literal). -/
def c1recTen : Booking :=
  { id := 2, category := "Hotel", location := { city := "X", country := "Y" },
    price := .real 10, nights := none, passengers := none }

/-- Witness fixture: a two-record input. -/
def wbk1 : Booking :=
  { id := 1, category := "Hotel", location := { city := "Bangkok", country := "TH" },
    price := .real 120, nights := some (.real 2), passengers := none }

def wbk2 : Booking :=
  { id := 2, category := "Flight", location := { city := "Tokyo", country := "JP" },
    price := .real 450, nights := none, passengers := some (.real 1) }

def wArr : List Booking := [wbk1, wbk2]

/-- Witness fixture: group by `category`, no aggregations, sort by `price`
ascending. -/
def wOpts : TransformOptions :=
  { groupBy := .one "category", aggregations := [],
    sortBy := { field := "price", order := .asc } }

/-- The first entry `transformData wArr wOpts` produces. -/
def wEntryHotel : ResultEntry :=
  { groupField := "category", key := "Hotel", aggregates := [],
    items := [wbk1], count := 1 }

/-- Witness fixture for C8: group by `nights` (absent on `wbk2`). -/
def w8Opts : TransformOptions :=
  { groupBy := .one "nights", aggregations := [],
    sortBy := { field := "price", order := .asc } }

/-- Witness fixture for C7: `count` aggregation of `price` over one record. -/
def w7Opts : TransformOptions :=
  { groupBy := .one "category", aggregations := [("price", .count)],
    sortBy := { field := "price", order := .asc } }

def w7Entry : ResultEntry :=
  { groupField := "category", key := "Hotel", aggregates := [("price", .real 1)],
    items := [wbk1], count := 1 }

/-- Witness fixture for C10: `min` aggregation of `nights` over a record
without `nights`. -/
def w10Opts : TransformOptions :=
  { groupBy := .one "category", aggregations := [("nights", .min)],
    sortBy := { field := "price", order := .asc } }

def w10Entry : ResultEntry :=
  { groupField := "category", key := "Flight", aggregates := [("nights", .posInf)],
    items := [wbk2], count := 1 }

/-- C2 counterexample fixture: two records grouped by the numeric field
`price` (scan order of prices: 450, then 120). -/
def c2bkA : Booking :=
  { id := 1, category := "A", location := { city := "X", country := "X" },
    price := .real 450, nights := none, passengers := none }

def c2bkB : Booking :=
  { id := 2, category := "B", location := { city := "Y", country := "Y" },
    price := .real 120, nights := none, passengers := none }

def c2arr : List Booking := [c2bkA, c2bkB]

def c2opts : TransformOptions :=
  { groupBy := .one "price", aggregations := [],
    sortBy := { field := "price", order := .asc } }

/-- The order `Object.entries` gives the keys of a plain object created in
the given order: array-index keys first, ascending numerically, then the
remaining keys in creation (first-encounter) order. -/
def jsKeyOrder (ks : List String) : List String :=
  (ks.filter (fun k => isArrayIndexStr k)).insertionSort
      (fun k1 k2 => natOfDigits k1.data ≤ natOfDigits k2.data)
    ++ ks.filter (fun k => !isArrayIndexStr k)

/-! ### Characterization of the grouping fold -/

section GroupingLemmas

variable {α : Type}

lemma fst_addToGroup (k : String) (b : α) (acc : List (String × List α)) :
    (addToGroup k b acc).map Prod.fst =
      if k ∈ acc.map Prod.fst then acc.map Prod.fst else acc.map Prod.fst ++ [k] := by
  induction acc with
  | nil => simp [addToGroup]
  | cons p rest ih =>
    obtain ⟨k0, bs⟩ := p
    by_cases h : k0 = k
    · simp [addToGroup, h]
    · by_cases hm : k ∈ rest.map Prod.fst
      · simp [addToGroup, h, hm, ih, Ne.symm h]
      · simp [addToGroup, h, hm, ih, Ne.symm h]

lemma nodup_fst_addToGroup (k : String) (b : α) (acc : List (String × List α))
    (hnd : (acc.map Prod.fst).Nodup) : ((addToGroup k b acc).map Prod.fst).Nodup := by
  rw [fst_addToGroup]
  by_cases hm : k ∈ acc.map Prod.fst
  · simpa [hm] using hnd
  · simpa [hm, List.nodup_append] using hnd

lemma addToGroup_of_mem {k : String} (b : α) {acc : List (String × List α)}
    (hnd : (acc.map Prod.fst).Nodup) (hmem : k ∈ acc.map Prod.fst) :
    addToGroup k b acc = acc.map (fun p => if p.1 = k then (p.1, p.2 ++ [b]) else p) := by
  induction acc with
  | nil => simp at hmem
  | cons p rest ih =>
    obtain ⟨k0, bs⟩ := p
    rw [List.map_cons] at hnd
    by_cases h : k0 = k
    · subst h
      have hnotin : k0 ∉ rest.map Prod.fst := (List.nodup_cons.mp hnd).1
      have hmap : rest.map (fun p => if p.1 = k0 then (p.1, p.2 ++ [b]) else p) = rest := by
        have h1 : rest.map (fun p => if p.1 = k0 then (p.1, p.2 ++ [b]) else p) =
            rest.map id := by
          apply List.map_congr_left
          intro q hq
          have hne : q.1 ≠ k0 := fun hqe => hnotin (hqe ▸ List.mem_map_of_mem Prod.fst hq)
          simp [hne]
        rw [h1, List.map_id]
      rw [List.map_cons, hmap]
      simp [addToGroup]
    · rw [List.map_cons, List.mem_cons] at hmem
      have hmem' : k ∈ rest.map Prod.fst := by
        rcases hmem with h1 | h2
        · exact absurd h1.symm h
        · exact h2
      have hnd' : (rest.map Prod.fst).Nodup := (List.nodup_cons.mp hnd).2
      simp [addToGroup, h, ih hnd' hmem']

lemma addToGroup_of_not_mem {k : String} (b : α) {acc : List (String × List α)}
    (hmem : k ∉ acc.map Prod.fst) : addToGroup k b acc = acc ++ [(k, [b])] := by
  induction acc with
  | nil => simp [addToGroup]
  | cons p rest ih =>
    obtain ⟨k0, bs⟩ := p
    have h : k0 ≠ k := by
      intro he; exact hmem (by simp [he])
    have hmem' : k ∉ rest.map Prod.fst := fun hm => hmem (by simp [hm])
    simp [addToGroup, h, ih hmem']

lemma firstSeenKeys_cons (key : α → String) (b : α) (bs : List α) :
    firstSeenKeys key (b :: bs) =
      key b :: (firstSeenKeys key bs).filter (fun k => k ≠ key b) := rfl

lemma mem_firstSeenKeys {key : α → String} {arr : List α} {k : String} :
    k ∈ firstSeenKeys key arr ↔ ∃ b ∈ arr, key b = k := by
  induction arr with
  | nil => simp [firstSeenKeys]
  | cons b bs ih =>
    rw [firstSeenKeys_cons]
    constructor
    · intro h
      rcases List.mem_cons.mp h with h1 | h1
      · exact ⟨b, List.mem_cons_self _ _, h1.symm⟩
      · obtain ⟨b', hb', hk⟩ := ih.mp (List.mem_of_mem_filter h1)
        exact ⟨b', List.mem_cons_of_mem _ hb', hk⟩
    · rintro ⟨b', hb', hk⟩
      rcases List.mem_cons.mp hb' with h1 | h1
      · exact List.mem_cons.mpr (Or.inl (h1 ▸ hk).symm)
      · by_cases he : k = key b
        · exact List.mem_cons.mpr (Or.inl he)
        · refine List.mem_cons.mpr (Or.inr (List.mem_filter.mpr ⟨ih.mpr ⟨b', h1, hk⟩, ?_⟩))
          simpa using he

lemma nodup_firstSeenKeys (key : α → String) (arr : List α) :
    (firstSeenKeys key arr).Nodup := by
  induction arr with
  | nil => simp [firstSeenKeys]
  | cons b bs ih =>
    rw [firstSeenKeys_cons]
    refine List.nodup_cons.mpr ⟨?_, ih.filter _⟩
    intro hmem
    exact absurd (List.of_mem_filter hmem) (by simp)

end GroupingLemmas

section GroupingMain

variable {α : Type}

lemma foldl_addToGroup (key : α → String) (arr : List α) :
    ∀ acc : List (String × List α), (acc.map Prod.fst).Nodup →
      arr.foldl (fun acc b => addToGroup (key b) b acc) acc =
        acc.map (fun p => (p.1, p.2 ++ arr.filter (fun b => key b = p.1)))
          ++ ((firstSeenKeys key arr).filter (fun k => k ∉ acc.map Prod.fst)).map
              (fun k => (k, arr.filter (fun b => key b = k))) := by
  induction arr with
  | nil =>
    intro acc hnd
    simp [firstSeenKeys]
  | cons b bs ih =>
    intro acc hnd
    rw [List.foldl_cons, ih _ (nodup_fst_addToGroup _ _ _ hnd), firstSeenKeys_cons]
    by_cases hmem : key b ∈ acc.map Prod.fst
    · rw [addToGroup_of_mem b hnd hmem]
      have hfst : ((acc.map fun p => if p.1 = key b then (p.1, p.2 ++ [b]) else p).map
          Prod.fst) = acc.map Prod.fst := by
        rw [List.map_map]
        apply List.map_congr_left
        intro p _
        by_cases hp : p.1 = key b <;> simp [hp]
      have hfirst : (acc.map fun p => if p.1 = key b then (p.1, p.2 ++ [b]) else p).map
            (fun p => (p.1, p.2 ++ bs.filter (fun x => key x = p.1))) =
          acc.map (fun p => (p.1, p.2 ++ (b :: bs).filter (fun x => key x = p.1))) := by
        rw [List.map_map]
        apply List.map_congr_left
        intro p _
        by_cases hp : p.1 = key b
        · simp only [Function.comp_apply, if_pos hp, List.filter_cons,
            decide_eq_true_eq, hp.symm, if_pos rfl]
          simp
        · have : ¬ key b = p.1 := fun h => hp h.symm
          simp only [Function.comp_apply, if_neg hp, List.filter_cons,
            decide_eq_true_eq, if_neg this]
      have hsecond : ((key b :: (firstSeenKeys key bs).filter fun k => k ≠ key b).filter
            (fun k => k ∉ acc.map Prod.fst)) =
          (firstSeenKeys key bs).filter (fun k => k ∉ acc.map Prod.fst) := by
        rw [List.filter_cons]
        simp only [hmem, not_true_eq_false, decide_False, if_false, decide_not]
        rw [List.filter_filter]
        apply List.filter_congr
        intro k _
        by_cases hk : k = key b
        · simp [hk, hmem]
        · simp [hk]
      rw [hfst, hfirst, hsecond]
      congr 1
      apply List.map_congr_left
      intro k hk
      have hkb : ¬ key b = k := by
        intro h
        have := List.of_mem_filter hk
        simp only [decide_eq_true_eq] at this
        exact this (h ▸ hmem)
      simp [List.filter_cons, hkb]
    · rw [addToGroup_of_not_mem b hmem]
      have hfst : ((acc ++ [(key b, [b])]).map Prod.fst) = acc.map Prod.fst ++ [key b] := by
        simp
      have hfirst : (acc ++ [(key b, [b])]).map
            (fun p => (p.1, p.2 ++ bs.filter (fun x => key x = p.1))) =
          acc.map (fun p => (p.1, p.2 ++ (b :: bs).filter (fun x => key x = p.1))) ++
            [(key b, (b :: bs).filter (fun x => key x = key b))] := by
        rw [List.map_append]
        congr 1
        · apply List.map_congr_left
          intro p hp
          have hne : ¬ key b = p.1 := by
            intro h
            exact hmem (h ▸ List.mem_map_of_mem Prod.fst hp)
          simp [List.filter_cons, hne]
        · simp [List.filter_cons]
      have hsecond : (firstSeenKeys key bs).filter
            (fun k => k ∉ (acc.map Prod.fst ++ [key b])) =
          ((firstSeenKeys key bs).filter (fun k => k ≠ key b)).filter
            (fun k => k ∉ acc.map Prod.fst) := by
        rw [List.filter_filter]
        apply List.filter_congr
        intro k _
        by_cases hk : k = key b <;> by_cases ha : k ∈ acc.map Prod.fst <;>
          simp [hk, ha]
      rw [hfst, hfirst, hsecond, List.append_assoc]
      congr 1
      have hcons : ((key b :: (firstSeenKeys key bs).filter fun k => k ≠ key b).filter
            (fun k => k ∉ acc.map Prod.fst)) =
          key b :: (((firstSeenKeys key bs).filter fun k => k ≠ key b).filter
            (fun k => k ∉ acc.map Prod.fst)) := by
        rw [List.filter_cons]
        simp [hmem]
      rw [hcons, List.map_cons, List.singleton_append]
      congr 1
      apply List.map_congr_left
      intro k hk
      have hkb : ¬ key b = k := by
        intro h
        have := List.of_mem_filter (List.mem_of_mem_filter hk)
        simp only [decide_eq_true_eq] at this
        exact this h.symm
      simp [List.filter_cons, hkb]

/-- `lodash.groupBy` produces one bucket per first-seen key, in first-seen
order; the bucket of key `k` is exactly the records whose key is `k`, in
input order. -/
lemma lGroupBy_eq (key : α → String) (arr : List α) :
    lGroupBy key arr =
      (firstSeenKeys key arr).map (fun k => (k, arr.filter (fun b => key b = k))) := by
  have h := foldl_addToGroup key arr [] (by simp)
  simpa [lGroupBy] using h

end GroupingMain

section EntriesOrderLemmas

variable {α : Type}

/-- Reordering the entries of a plain object permutes them. -/
lemma jsEntriesOrder_perm (l : List (String × α)) : (jsEntriesOrder l).Perm l := by
  unfold jsEntriesOrder
  refine List.Perm.trans (List.Perm.append_right _ (List.perm_insertionSort _ _)) ?_
  exact List.filter_append_perm _ l

lemma mem_jsEntriesOrder {l : List (String × α)} {p : String × α} :
    p ∈ jsEntriesOrder l ↔ p ∈ l :=
  (jsEntriesOrder_perm l).mem_iff

lemma map_filter_fst (l : List (String × α)) (p : String → Bool) :
    (l.filter (fun q => p q.1)).map Prod.fst = (l.map Prod.fst).filter p := by
  induction l with
  | nil => rfl
  | cons q rest ih => by_cases h : p q.1 <;> simp [List.filter_cons, h, ih]

/-- Enumeration order only rearranges keys: the key list of the reordered
entries is the reordering of the key list. -/
lemma map_fst_jsEntriesOrder (l : List (String × α)) :
    (jsEntriesOrder l).map Prod.fst =
      ((l.map Prod.fst).filter (fun k => isArrayIndexStr k)).insertionSort
          (fun k1 k2 => natOfDigits k1.data ≤ natOfDigits k2.data)
        ++ (l.map Prod.fst).filter (fun k => !isArrayIndexStr k) := by
  unfold jsEntriesOrder
  rw [List.map_append]
  congr 1
  · exact (List.map_insertionSort _
      (fun k1 k2 : String => natOfDigits k1.data ≤ natOfDigits k2.data)
      Prod.fst _ (fun a _ b _ => Iff.rfl)).trans
      (by rw [map_filter_fst l (fun k => isArrayIndexStr k)])
  · exact map_filter_fst l (fun k => !isArrayIndexStr k)

end EntriesOrderLemmas

section FlattenPerm

variable {α : Type}

lemma flatten_map_ite_insert (key : α → String) (b : α) (f : String → List α)
    (ks : List String) (hnd : ks.Nodup) (hmem : key b ∈ ks) :
    ((ks.map (fun k => if key b = k then b :: f k else f k)).flatten).Perm
      (b :: (ks.map f).flatten) := by
  induction ks with
  | nil => simp at hmem
  | cons k ks ih =>
    by_cases hk : key b = k
    · subst hk
      have hnotin : key b ∉ ks := (List.nodup_cons.mp hnd).1
      have hrest : ks.map (fun k => if key b = k then b :: f k else f k) = ks.map f := by
        apply List.map_congr_left
        intro k0 hk0
        have : ¬ key b = k0 := fun h => hnotin (h ▸ hk0)
        simp [this]
      have heq : ((key b :: ks).map (fun k => if key b = k then b :: f k else f k)).flatten
          = b :: ((key b :: ks).map f).flatten := by
        simp [hrest]
      rw [heq]
    · have hmem' : key b ∈ ks := by
        rcases List.mem_cons.mp hmem with h | h
        · exact absurd h hk
        · exact h
      have ih' := ih (List.nodup_cons.mp hnd).2 hmem'
      simp only [List.map_cons, List.flatten_cons, if_neg hk]
      exact ((ih'.append_left (f k)).trans List.perm_middle)

lemma flatten_filter_perm (key : α → String) (ks : List String) :
    ∀ arr : List α, ks.Nodup → (∀ b ∈ arr, key b ∈ ks) →
      ((ks.map (fun k => arr.filter (fun b => key b = k))).flatten).Perm arr := by
  intro arr
  induction arr with
  | nil =>
    intro _ _
    have : ks.map (fun k => ([] : List α).filter (fun b => key b = k)) =
        ks.map (fun _ => ([] : List α)) := by simp
    rw [this]
    rw [List.flatten_eq_nil_iff.mpr (by simp)]
  | cons b bs ih =>
    intro hnd hcov
    have hstep : ks.map (fun k => (b :: bs).filter (fun x => key x = k)) =
        ks.map (fun k => if key b = k then b :: bs.filter (fun x => key x = k)
          else bs.filter (fun x => key x = k)) := by
      apply List.map_congr_left
      intro k _
      by_cases hk : key b = k <;> simp [List.filter_cons, hk]
    rw [hstep]
    refine (flatten_map_ite_insert key b _ ks hnd
      (hcov b (List.mem_cons_self _ _))).trans ?_
    exact (ih hnd (fun x hx => hcov x (List.mem_cons_of_mem _ hx))).cons b

/-- The buckets of `lodash.groupBy` are an exact cover: flattening them gives
back the input up to permutation. -/
lemma flatten_buckets_perm (key : α → String) (arr : List α) :
    (((firstSeenKeys key arr).map (fun k => arr.filter (fun b => key b = k))).flatten).Perm
      arr :=
  flatten_filter_perm key _ arr (nodup_firstSeenKeys key arr)
    (fun b hb => mem_firstSeenKeys.mpr ⟨b, hb, rfl⟩)

end FlattenPerm

section SortRelLemmas

variable {α : Type} {r s : α → α → Prop} [DecidableRel r] [DecidableRel s]

lemma orderedInsert_congr_rel (a : α) (l : List α) (h : ∀ b ∈ l, r a b ↔ s a b) :
    l.orderedInsert r a = l.orderedInsert s a := by
  induction l with
  | nil => rfl
  | cons y ys ih =>
    simp only [List.orderedInsert]
    by_cases hs : s a y
    · rw [if_pos ((h y (List.mem_cons_self _ _)).mpr hs), if_pos hs]
    · rw [if_neg (fun hr => hs ((h y (List.mem_cons_self _ _)).mp hr)), if_neg hs,
        ih (fun b hb => h b (List.mem_cons_of_mem _ hb))]

lemma insertionSort_congr_rel (l : List α) (h : ∀ a ∈ l, ∀ b ∈ l, r a b ↔ s a b) :
    l.insertionSort r = l.insertionSort s := by
  induction l with
  | nil => rfl
  | cons x xs ih =>
    simp only [List.insertionSort]
    rw [ih (fun a ha b hb =>
      h a (List.mem_cons_of_mem _ ha) b (List.mem_cons_of_mem _ hb))]
    exact orderedInsert_congr_rel x _ (fun b hb =>
      h x (List.mem_cons_self _ _)
        b (List.mem_cons_of_mem _ ((List.mem_insertionSort s).mp hb)))

lemma filter_orderedInsert_ties (p : α → Bool) (a : α) (l : List α)
    (h : ∀ b ∈ l, p a = true → p b = true → r a b) :
    (l.orderedInsert r a).filter p = if p a then a :: l.filter p else l.filter p := by
  induction l with
  | nil => by_cases hp : p a <;> simp [hp]
  | cons y ys ih =>
    simp only [List.orderedInsert]
    by_cases hr : r a y
    · rw [if_pos hr]
      by_cases hp : p a <;> simp [List.filter_cons, hp]
    · rw [if_neg hr]
      have ihh := ih (fun b hb => h b (List.mem_cons_of_mem _ hb))
      by_cases hp : p a
      · have hpy : ¬ p y = true := fun hpy =>
          hr (h y (List.mem_cons_self _ _) hp hpy)
        simp [List.filter_cons, hpy, ihh, hp]
      · simp [List.filter_cons, ihh, hp]

lemma filter_insertionSort_ties (p : α → Bool) (l : List α)
    (h : ∀ a ∈ l, ∀ b ∈ l, p a = true → p b = true → r a b) :
    (l.insertionSort r).filter p = l.filter p := by
  induction l with
  | nil => rfl
  | cons x xs ih =>
    simp only [List.insertionSort]
    rw [filter_orderedInsert_ties p x _ (fun b hb hpa hpb =>
      h x (List.mem_cons_self _ _)
        b (List.mem_cons_of_mem _ ((List.mem_insertionSort r).mp hb)) hpa hpb)]
    rw [ih (fun a ha b hb =>
      h a (List.mem_cons_of_mem _ ha) b (List.mem_cons_of_mem _ hb))]
    by_cases hp : p x <;> simp [List.filter_cons, hp]

omit [DecidableRel r] in
lemma pairwise_of_forall_mem_rel {l : List α} (h : ∀ a ∈ l, ∀ b ∈ l, r a b) :
    l.Pairwise r := by
  induction l with
  | nil => exact List.Pairwise.nil
  | cons x xs ih =>
    refine List.Pairwise.cons (fun b hb => h x (List.mem_cons_self _ _)
      (b) (List.mem_cons_of_mem _ hb)) (ih ?_)
    exact fun a ha b hb => h a (List.mem_cons_of_mem _ ha) b (List.mem_cons_of_mem _ hb)

end SortRelLemmas

lemma isReal_iff {n : JNum} : n.isReal = true ↔ ∃ q : ℚ, n = JNum.real q := by
  cases n <;> simp [JNum.isReal]

lemma sortBefore_iff_of_real (sb : SortBySpec) {a b : Booking}
    (ha : (numGet a sb.field).isReal = true) (hb : (numGet b sb.field).isReal = true) :
    sortBefore sb a b ↔ sortLeKey sb a b := by
  obtain ⟨qa, hqa⟩ := isReal_iff.mp ha
  obtain ⟨qb, hqb⟩ := isReal_iff.mp hb
  cases hord : sb.order <;>
    simp [sortBefore, jsCompare, hord, hqa, hqb, JNum.jsub, JNum.jadd, JNum.jneg,
      JNum.jposCmp, sortLeKey, JNum.toQ, ← sub_eq_add_neg, sub_pos, not_lt]

lemma sortBefore_of_key_eq (sb : SortBySpec) {a b : Booking}
    (h : numGet a sb.field = numGet b sb.field)
    (hr : (numGet a sb.field).isReal = true) : sortBefore sb a b := by
  obtain ⟨qa, hqa⟩ := isReal_iff.mp hr
  cases hord : sb.order <;>
    simp [sortBefore, jsCompare, hord, hqa, ← h, JNum.jsub, JNum.jadd, JNum.jneg,
      JNum.jposCmp]

lemma jsSortItems_perm (sb : SortBySpec) (l : List Booking) :
    (jsSortItems sb l).Perm l :=
  List.perm_insertionSort _ l

lemma sortLeKey_total (sb : SortBySpec) (a b : Booking) :
    sortLeKey sb a b ∨ sortLeKey sb b a := by
  unfold sortLeKey
  cases sb.order <;> exact le_total _ _

lemma sortLeKey_trans (sb : SortBySpec) (a b c : Booking)
    (h1 : sortLeKey sb a b) (h2 : sortLeKey sb b c) : sortLeKey sb a c := by
  obtain ⟨f, o⟩ := sb
  unfold sortLeKey at h1 h2 ⊢
  cases o with
  | asc => exact le_trans h1 h2
  | desc => exact le_trans h2 h1

/-- When every record's sort key is finite, the sorted bucket is ordered by
key (ascending or descending per the sort order). -/
lemma jsSortItems_pairwise (sb : SortBySpec) (l : List Booking)
    (h : ∀ b ∈ l, (numGet b sb.field).isReal = true) :
    (jsSortItems sb l).Pairwise (sortLeKey sb) := by
  have heq : jsSortItems sb l = l.insertionSort (sortLeKey sb) :=
    insertionSort_congr_rel l (fun a ha b hb => sortBefore_iff_of_real sb (h a ha) (h b hb))
  rw [heq]
  haveI : IsTotal Booking (sortLeKey sb) := ⟨sortLeKey_total sb⟩
  haveI : IsTrans Booking (sortLeKey sb) := ⟨sortLeKey_trans sb⟩
  exact List.sorted_insertionSort _ l

/-- Stability of the sort: records with any common finite sort-key value keep
their relative input order. -/
lemma jsSortItems_filter_key (sb : SortBySpec) (l : List Booking) (v : ℚ) :
    (jsSortItems sb l).filter (fun b => numGet b sb.field = JNum.real v) =
      l.filter (fun b => numGet b sb.field = JNum.real v) := by
  apply filter_insertionSort_ties
  intro a _ b _ hpa hpb
  simp only [decide_eq_true_eq] at hpa hpb
  exact sortBefore_of_key_eq sb (hpa.trans hpb.symm) (by simp [hpa, JNum.isReal])

/-- When every pair of records ties under the comparator, the sort is the
identity. -/
lemma jsSortItems_of_ties (sb : SortBySpec) (l : List Booking)
    (h : ∀ a ∈ l, ∀ b ∈ l, sortBefore sb a b) : jsSortItems sb l = l :=
  List.Sorted.insertionSort_eq (pairwise_of_forall_mem_rel h)

@[simp] lemma mkEntry_groupField (opts : TransformOptions) (g : String)
    (p : String × List Booking) : (mkEntry opts g p).groupField = g := rfl

@[simp] lemma mkEntry_key (opts : TransformOptions) (g : String)
    (p : String × List Booking) : (mkEntry opts g p).key = p.1 := rfl

@[simp] lemma mkEntry_aggregates (opts : TransformOptions) (g : String)
    (p : String × List Booking) :
    (mkEntry opts g p).aggregates = buildAggregates opts.aggregations p.2 := rfl

@[simp] lemma mkEntry_items (opts : TransformOptions) (g : String)
    (p : String × List Booking) :
    (mkEntry opts g p).items = jsSortItems opts.sortBy p.2 := rfl

@[simp] lemma mkEntry_count (opts : TransformOptions) (g : String)
    (p : String × List Booking) :
    (mkEntry opts g p).count = (jsSortItems opts.sortBy p.2).length := rfl

lemma mem_pathEntries {opts : TransformOptions} {arr : List Booking} {g : String}
    {e : ResultEntry} :
    e ∈ pathEntries opts arr g ↔
      ∃ k ∈ firstSeenKeys (jsKeyOf g) arr,
        e = mkEntry opts g (k, arr.filter (fun b => jsKeyOf g b = k)) := by
  unfold pathEntries
  rw [lGroupBy_eq]
  constructor
  · intro h
    obtain ⟨p, hp, he⟩ := List.mem_map.mp h
    obtain ⟨k, hk, hpk⟩ := List.mem_map.mp (mem_jsEntriesOrder.mp hp)
    exact ⟨k, hk, by rw [← he, ← hpk]⟩
  · rintro ⟨k, hk, he⟩
    exact List.mem_map.mpr ⟨_, mem_jsEntriesOrder.mpr (List.mem_map.mpr ⟨k, hk, rfl⟩),
      he.symm⟩

/-- Every entry of the result is, for some group-by path `g` and some key `k`
actually occurring in the input, the assembled entry of the bucket of the
records whose key is `k`. -/
lemma mem_transformData {arr : List Booking} {opts : TransformOptions} {e : ResultEntry} :
    e ∈ transformData arr opts ↔
      ∃ g ∈ normalizeGroupBy opts.groupBy, ∃ k ∈ firstSeenKeys (jsKeyOf g) arr,
        e = mkEntry opts g (k, arr.filter (fun b => jsKeyOf g b = k)) := by
  unfold transformData
  rw [List.mem_flatMap]
  exact exists_congr fun g => and_congr_right fun _ => mem_pathEntries

/-- Membership in the `_aggregations` object: exactly the three recognized
fields, with a requested aggregation kind, whose computed value is truthy. -/
lemma mem_buildAggregates {aggs : List (String × AggKind)} {items : List Booking}
    {f : String} {v : JNum} :
    (f, v) ∈ buildAggregates aggs items ↔
      (f = "price" ∨ f = "nights" ∨ f = "passengers") ∧
        ∃ k, aggs.lookup f = some k ∧ v = getAggregatedValue items f k ∧
          v.jtruthy = true := by
  unfold buildAggregates aggFor
  constructor
  · intro h
    rcases List.mem_append.mp h with h1 | h1
    · rcases List.mem_append.mp h1 with h2 | h2
      · by_cases hp : (match aggs.lookup "price" with
            | some k => getAggregatedValue items "price" k
            | none => JNum.real 0).jtruthy = true
        · rw [if_pos hp] at h2
          simp only [List.mem_singleton, Prod.mk.injEq] at h2
          obtain ⟨hf, hv⟩ := h2
          subst hf hv
          cases hlk : aggs.lookup "price" with
          | none => rw [hlk] at hp; simp [JNum.jtruthy] at hp
          | some k =>
            rw [hlk] at hp
            exact ⟨Or.inl rfl, k, rfl, rfl, hp⟩
        · rw [if_neg hp] at h2; simp at h2
      · by_cases hp : (match aggs.lookup "nights" with
            | some k => getAggregatedValue items "nights" k
            | none => JNum.real 0).jtruthy = true
        · rw [if_pos hp] at h2
          simp only [List.mem_singleton, Prod.mk.injEq] at h2
          obtain ⟨hf, hv⟩ := h2
          subst hf hv
          cases hlk : aggs.lookup "nights" with
          | none => rw [hlk] at hp; simp [JNum.jtruthy] at hp
          | some k =>
            rw [hlk] at hp
            exact ⟨Or.inr (Or.inl rfl), k, rfl, rfl, hp⟩
        · rw [if_neg hp] at h2; simp at h2
    · by_cases hp : (match aggs.lookup "passengers" with
          | some k => getAggregatedValue items "passengers" k
          | none => JNum.real 0).jtruthy = true
      · rw [if_pos hp] at h1
        simp only [List.mem_singleton, Prod.mk.injEq] at h1
        obtain ⟨hf, hv⟩ := h1
        subst hf hv
        cases hlk : aggs.lookup "passengers" with
        | none => rw [hlk] at hp; simp [JNum.jtruthy] at hp
        | some k =>
          rw [hlk] at hp
          exact ⟨Or.inr (Or.inr rfl), k, rfl, rfl, hp⟩
      · rw [if_neg hp] at h1; simp at h1
  · rintro ⟨hf, k, hlk, hv, ht⟩
    subst hv
    rcases hf with hf | hf | hf <;> subst hf <;> simp only [hlk] <;> simp [ht]

lemma aggValues_append (l1 l2 : List Booking) (f : String) :
    aggValues (l1 ++ l2) f = aggValues l1 f ++ aggValues l2 f := by
  simp [aggValues, List.filter_append]

lemma aggValues_cons_zero {r : Booking} {f : String} (h : numGet r f = .real 0)
    (l : List Booking) : aggValues (r :: l) f = aggValues l f := by
  simp [aggValues, List.filter_cons, h, JNum.jneZero]

lemma getAggregatedValue_congr {l l' : List Booking} {f : String}
    (h : aggValues l f = aggValues l' f) (k : AggKind) :
    getAggregatedValue l f k = getAggregatedValue l' f k := by
  unfold getAggregatedValue
  rw [h]

lemma aggValues_eq_nil {items : List Booking} {f : String}
    (h : ∀ b ∈ items, numGet b f = .real 0) : aggValues items f = [] := by
  apply List.filter_eq_nil_iff.mpr
  intro v hv
  obtain ⟨b, hb, hvb⟩ := List.mem_map.mp hv
  simp [JNum.jneZero, ← hvb, h b hb]

/-- The five empty-reduction results of `getAggregatedValue`. -/
lemma getAgg_of_nil {items : List Booking} {f : String} (h : aggValues items f = []) :
    getAggregatedValue items f .sum = JNum.real 0 ∧
    getAggregatedValue items f .avg = JNum.nan ∧
    getAggregatedValue items f .min = JNum.posInf ∧
    getAggregatedValue items f .max = JNum.negInf ∧
    getAggregatedValue items f .count = JNum.real 0 := by
  refine ⟨?_, ?_, ?_, ?_, ?_⟩ <;> simp [getAggregatedValue, h, JNum.jdivNat]

/-- C1: for every aggregable field the aggregation input is the
`FieldAccessor`-with-default-0 value list with all zeros removed: inserting a
record whose field value is `0` anywhere leaves every aggregate unchanged
(a genuine `0` is excluded exactly like an absent field), and on the literal
records `[{price: 0}, {price: 10}]` the `sum` aggregate of `price` is `10`
and the `count` aggregate is `1`. -/
theorem claim_C1_zero_filtered_input :
    (∀ (l1 l2 : List Booking) (r : Booking) (field : String) (agg : AggKind),
        numGet r field = JNum.real 0 →
        getAggregatedValue (l1 ++ r :: l2) field agg =
          getAggregatedValue (l1 ++ l2) field agg)
    ∧ (∀ (items : List Booking) (field : String),
        aggValues items field =
          (items.map fun item => numGet item field).filter JNum.jneZero)
    ∧ getAggregatedValue [c1recZero, c1recTen] "price" .sum = JNum.real 10
    ∧ getAggregatedValue [c1recZero, c1recTen] "price" .count = JNum.real 1 := by
  refine ⟨?_, fun _ _ => rfl,
    by norm_num [getAggregatedValue, aggValues, c1recZero, c1recTen, numGet, jsGet,
      JNum.jneZero, JNum.jadd],
    by norm_num [getAggregatedValue, aggValues, c1recZero, c1recTen, numGet, jsGet,
      JNum.jneZero]⟩
  intro l1 l2 r field agg h
  apply getAggregatedValue_congr
  rw [aggValues_append, aggValues_cons_zero h, ← aggValues_append]

theorem claim_C1_witness :
    numGet c1recZero "price" = JNum.real 0 ∧
    getAggregatedValue ([c1recTen] ++ c1recZero :: []) "price" AggKind.sum =
      getAggregatedValue ([c1recTen] ++ []) "price" AggKind.sum :=
  ⟨by decide,
    claim_C1_zero_filtered_input.1 [c1recTen] [] c1recZero "price" .sum (by decide)⟩

/-- C5: when the zero-filtered value list of a group is empty, `sum` yields
`0`, `avg` yields `NaN` (unguarded `0/0`), `min` yields `+Infinity`, `max`
yields `-Infinity`, and `count` yields `0`. -/
theorem claim_C5_empty_reduction (items : List Booking) (field : String)
    (h : aggValues items field = []) :
    getAggregatedValue items field .sum = JNum.real 0 ∧
    getAggregatedValue items field .avg = JNum.nan ∧
    getAggregatedValue items field .min = JNum.posInf ∧
    getAggregatedValue items field .max = JNum.negInf ∧
    getAggregatedValue items field .count = JNum.real 0 :=
  getAgg_of_nil h

theorem claim_C5_witness :
    aggValues ([] : List Booking) "price" = [] ∧
    getAggregatedValue ([] : List Booking) "price" AggKind.avg = JNum.nan :=
  ⟨rfl, (claim_C5_empty_reduction [] "price" rfl).2.1⟩

/-- C4: every result entry's `count` equals the length of its `items`. -/
theorem claim_C4_count_eq_length (arr : List Booking) (opts : TransformOptions)
    (e : ResultEntry) (he : e ∈ transformData arr opts) : e.count = e.items.length := by
  obtain ⟨g, _, k, _, rfl⟩ := mem_transformData.mp he
  rfl

theorem claim_C4_witness :
    (wEntryHotel ∈ transformData wArr wOpts) ∧ wEntryHotel.count = wEntryHotel.items.length :=
  ⟨by decide, claim_C4_count_eq_length wArr wOpts wEntryHotel (by decide)⟩

/-- C9: each entry's `items` is a re-ordering (permutation) of the sublist of
the input records carrying the entry's key — the same records, in a new
order; in the pure model the input list itself is untouched by construction. -/
theorem claim_C9_items_perm_bucket (arr : List Booking) (opts : TransformOptions)
    (e : ResultEntry) (he : e ∈ transformData arr opts) :
    e.items.Perm (arr.filter (fun b => jsKeyOf e.groupField b = e.key)) := by
  obtain ⟨g, _, k, _, rfl⟩ := mem_transformData.mp he
  simpa using jsSortItems_perm opts.sortBy _

theorem claim_C9_witness :
    (wEntryHotel ∈ transformData wArr wOpts) ∧
    wEntryHotel.items.Perm
      (wArr.filter (fun b => jsKeyOf wEntryHotel.groupField b = wEntryHotel.key)) :=
  ⟨by decide, claim_C9_items_perm_bucket wArr wOpts wEntryHotel (by decide)⟩

lemma map_items_pathEntries (opts : TransformOptions) (arr : List Booking) (g : String) :
    (pathEntries opts arr g).map ResultEntry.items =
      (jsEntriesOrder (lGroupBy (jsKeyOf g) arr)).map
        (fun p => jsSortItems opts.sortBy p.2) := by
  unfold pathEntries
  rw [List.map_map]
  exact List.map_congr_left (fun p _ => rfl)

lemma map_key_pathEntries (opts : TransformOptions) (arr : List Booking) (g : String) :
    (pathEntries opts arr g).map ResultEntry.key =
      (jsEntriesOrder (lGroupBy (jsKeyOf g) arr)).map Prod.fst := by
  unfold pathEntries
  rw [List.map_map]
  exact List.map_congr_left (fun p _ => rfl)

lemma map_fst_lGroupBy {α : Type} (key : α → String) (arr : List α) :
    (lGroupBy key arr).map Prod.fst = firstSeenKeys key arr := by
  rw [lGroupBy_eq, List.map_map]
  exact (List.map_congr_left (fun k _ => rfl)).trans (List.map_id _)

lemma map_snd_lGroupBy {α : Type} (key : α → String) (arr : List α) :
    (lGroupBy key arr).map Prod.snd =
      (firstSeenKeys key arr).map (fun k => arr.filter (fun b => key b = k)) := by
  rw [lGroupBy_eq, List.map_map]
  exact List.map_congr_left (fun k _ => rfl)

/-- C3: for each group-by path, the buckets partition the whole input — the
concatenation of all entries' items is a permutation of the input list, every
record of an entry carries that entry's key, and the entries' keys are
pairwise distinct; the path-wise results are concatenated, each path grouping
the entire input independently. -/
theorem claim_C3_partition (arr : List Booking) (opts : TransformOptions) (g : String)
    (_hg : g ∈ normalizeGroupBy opts.groupBy) :
    transformData arr opts = (normalizeGroupBy opts.groupBy).flatMap (pathEntries opts arr)
    ∧ (((pathEntries opts arr g).map ResultEntry.items).flatten).Perm arr
    ∧ (∀ e ∈ pathEntries opts arr g, ∀ b ∈ e.items, jsKeyOf g b = e.key)
    ∧ ((pathEntries opts arr g).map ResultEntry.key).Nodup := by
  refine ⟨rfl, ?_, ?_, ?_⟩
  · rw [map_items_pathEntries]
    have h1 : List.Forall₂ (fun a b => a.Perm b)
        ((jsEntriesOrder (lGroupBy (jsKeyOf g) arr)).map (fun p => jsSortItems opts.sortBy p.2))
        ((jsEntriesOrder (lGroupBy (jsKeyOf g) arr)).map Prod.snd) := by
      rw [List.forall₂_map_right_iff, List.forall₂_map_left_iff]
      exact List.forall₂_same.mpr (fun p _ => jsSortItems_perm opts.sortBy p.2)
    refine (List.Perm.flatten_congr h1).trans ?_
    refine (((jsEntriesOrder_perm (lGroupBy (jsKeyOf g) arr)).map Prod.snd).flatten).trans ?_
    rw [map_snd_lGroupBy]
    exact flatten_buckets_perm (jsKeyOf g) arr
  · intro e he b hb
    obtain ⟨k, hk, rfl⟩ := mem_pathEntries.mp he
    simp only [mkEntry_items, mkEntry_key] at hb ⊢
    have hb' := (jsSortItems_perm opts.sortBy _).mem_iff.mp hb
    have hfa := (List.mem_filter.mp hb').2
    simpa using hfa
  · rw [map_key_pathEntries]
    refine ((jsEntriesOrder_perm (lGroupBy (jsKeyOf g) arr)).map Prod.fst).nodup_iff.mpr ?_
    rw [map_fst_lGroupBy]
    exact nodup_firstSeenKeys (jsKeyOf g) arr

theorem claim_C3_witness :
    ("category" ∈ normalizeGroupBy wOpts.groupBy) ∧
    (((pathEntries wOpts wArr "category").map ResultEntry.items).flatten).Perm wArr :=
  ⟨by decide, (claim_C3_partition wArr wOpts "category" (by decide)).2.1⟩

/-- C8: a record whose group-by path resolves to `undefined` is grouped under
the string key `"undefined"`, a valid, distinct bucket emitted like any
other. -/
theorem claim_C8_undefined_bucket (arr : List Booking) (opts : TransformOptions)
    (g : String) (b : Booking) (hg : g ∈ normalizeGroupBy opts.groupBy) (hb : b ∈ arr)
    (hu : jsGet b g = JSVal.undefined) :
    ∃ e ∈ transformData arr opts,
      e.groupField = g ∧ e.key = "undefined" ∧ b ∈ e.items := by
  have hkey : jsKeyOf g b = "undefined" := by rw [jsKeyOf, hu]; rfl
  refine ⟨mkEntry opts g ("undefined", arr.filter (fun x => jsKeyOf g x = "undefined")),
    mem_transformData.mpr ⟨g, hg, "undefined",
      mem_firstSeenKeys.mpr ⟨b, hb, hkey⟩, rfl⟩, rfl, rfl, ?_⟩
  simp only [mkEntry_items]
  refine (jsSortItems_perm opts.sortBy _).mem_iff.mpr ?_
  exact List.mem_filter.mpr ⟨hb, by simp [hkey]⟩

theorem claim_C8_witness :
    ("nights" ∈ normalizeGroupBy w8Opts.groupBy) ∧ (wbk2 ∈ wArr) ∧
    (jsGet wbk2 "nights" = JSVal.undefined) ∧
    ∃ e ∈ transformData wArr w8Opts,
      e.groupField = "nights" ∧ e.key = "undefined" ∧ wbk2 ∈ e.items :=
  ⟨by decide, by decide, by decide,
    claim_C8_undefined_bucket wArr w8Opts "nights" wbk2 (by decide) (by decide) (by decide)⟩

/-- C7: the aggregates object of an entry holds exactly the fields among
`price`, `nights`, `passengers` that appear in the aggregations mapping and
whose computed aggregate over the entry's bucket is truthy (`0` and `NaN`
omitted); no other field ever appears. -/
theorem claim_C7_aggregates_exact (arr : List Booking) (opts : TransformOptions)
    (e : ResultEntry) (he : e ∈ transformData arr opts) (f : String) (v : JNum) :
    (f, v) ∈ e.aggregates ↔
      (f = "price" ∨ f = "nights" ∨ f = "passengers") ∧
        ∃ k, opts.aggregations.lookup f = some k ∧
          v = getAggregatedValue (arr.filter (fun b => jsKeyOf e.groupField b = e.key)) f k ∧
          v.jtruthy = true := by
  obtain ⟨g, _, k0, _, rfl⟩ := mem_transformData.mp he
  simp only [mkEntry_aggregates, mkEntry_groupField, mkEntry_key]
  exact mem_buildAggregates

theorem claim_C7_witness :
    (w7Entry ∈ transformData [wbk1] w7Opts) ∧
    (("price", JNum.real 1) ∈ w7Entry.aggregates ↔
      ("price" = "price" ∨ "price" = "nights" ∨ "price" = "passengers") ∧
        ∃ k, w7Opts.aggregations.lookup "price" = some k ∧
          JNum.real 1 = getAggregatedValue
            ([wbk1].filter (fun b => jsKeyOf w7Entry.groupField b = w7Entry.key))
            "price" k ∧
          (JNum.real 1).jtruthy = true) :=
  ⟨by decide,
    claim_C7_aggregates_exact [wbk1] w7Opts w7Entry (by decide) "price" (JNum.real 1)⟩

/-- C10: if every record of a bucket has value `0` (or missing) in a field
aggregated with `min` (resp. `max`), the aggregates object DOES contain that
field with value `+Infinity` (resp. `-Infinity`) — the infinite sentinels are
truthy and pass the inclusion filter — while under the same condition `sum`
and `count` (value `0`) and `avg` (value `NaN`) are omitted. -/
theorem claim_C10_infinite_sentinels_included (arr : List Booking)
    (opts : TransformOptions) (e : ResultEntry) (f : String)
    (he : e ∈ transformData arr opts)
    (hf : f = "price" ∨ f = "nights" ∨ f = "passengers")
    (hz : ∀ b ∈ arr, jsKeyOf e.groupField b = e.key → numGet b f = JNum.real 0) :
    (opts.aggregations.lookup f = some .min → (f, JNum.posInf) ∈ e.aggregates)
    ∧ (opts.aggregations.lookup f = some .max → (f, JNum.negInf) ∈ e.aggregates)
    ∧ (opts.aggregations.lookup f = some .sum → ∀ v, (f, v) ∉ e.aggregates)
    ∧ (opts.aggregations.lookup f = some .avg → ∀ v, (f, v) ∉ e.aggregates)
    ∧ (opts.aggregations.lookup f = some .count → ∀ v, (f, v) ∉ e.aggregates) := by
  obtain ⟨g, hgm, k0, hk0, rfl⟩ := mem_transformData.mp he
  simp only [mkEntry_groupField, mkEntry_key, mkEntry_aggregates] at hz ⊢
  have hnil : aggValues (arr.filter (fun b => jsKeyOf g b = k0)) f = [] := by
    apply aggValues_eq_nil
    intro b hbf
    have hm := List.mem_filter.mp hbf
    exact hz b hm.1 (by simpa using hm.2)
  obtain ⟨hsum, havg, hmin, hmax, hcount⟩ := getAgg_of_nil hnil
  refine ⟨?_, ?_, ?_, ?_, ?_⟩
  · intro hlk
    exact mem_buildAggregates.mpr ⟨hf, .min, hlk, hmin.symm, rfl⟩
  · intro hlk
    exact mem_buildAggregates.mpr ⟨hf, .max, hlk, hmax.symm, rfl⟩
  · intro hlk v hv
    obtain ⟨_, k, hlk2, hveq, ht⟩ := mem_buildAggregates.mp hv
    rw [hlk2] at hlk
    injection hlk with hk
    subst hk
    rw [hveq, hsum] at ht
    simp [JNum.jtruthy] at ht
  · intro hlk v hv
    obtain ⟨_, k, hlk2, hveq, ht⟩ := mem_buildAggregates.mp hv
    rw [hlk2] at hlk
    injection hlk with hk
    subst hk
    rw [hveq, havg] at ht
    simp [JNum.jtruthy] at ht
  · intro hlk v hv
    obtain ⟨_, k, hlk2, hveq, ht⟩ := mem_buildAggregates.mp hv
    rw [hlk2] at hlk
    injection hlk with hk
    subst hk
    rw [hveq, hcount] at ht
    simp [JNum.jtruthy] at ht

theorem claim_C10_witness :
    (w10Entry ∈ transformData [wbk2] w10Opts) ∧
    (w10Opts.aggregations.lookup "nights" = some AggKind.min) ∧
    ("nights", JNum.posInf) ∈ w10Entry.aggregates :=
  ⟨by decide, by decide,
    (claim_C10_infinite_sentinels_included [wbk2] w10Opts w10Entry "nights" (by decide)
      (by decide) (by decide)).1 (by decide)⟩

/-- C6: within an entry, items are ordered by the `FieldAccessor` value of
`sortBy.field` (default 0), ascending or descending per `sortBy.order`
(stated under the assumption that the sort keys are finite numbers, which
makes the comparator consistent); the sort is stable — for every key value,
the records holding it keep their relative input order; and when the sort
field is `0`/missing on every record, the bucket is returned unchanged. -/
theorem claim_C6_sorted_stable (arr : List Booking) (opts : TransformOptions)
    (e : ResultEntry) (he : e ∈ transformData arr opts) :
    ((∀ b ∈ arr, (numGet b opts.sortBy.field).isReal = true) →
        e.items.Pairwise (sortLeKey opts.sortBy))
    ∧ (∀ v : ℚ,
        e.items.filter (fun b => numGet b opts.sortBy.field = JNum.real v) =
          (arr.filter (fun b => jsKeyOf e.groupField b = e.key)).filter
            (fun b => numGet b opts.sortBy.field = JNum.real v))
    ∧ ((∀ b ∈ arr, numGet b opts.sortBy.field = JNum.real 0) →
        e.items = arr.filter (fun b => jsKeyOf e.groupField b = e.key)) := by
  obtain ⟨g, _, k0, _, rfl⟩ := mem_transformData.mp he
  simp only [mkEntry_items, mkEntry_groupField, mkEntry_key]
  refine ⟨?_, ?_, ?_⟩
  · intro hreal
    exact jsSortItems_pairwise opts.sortBy _ (fun b hb =>
      hreal b (List.mem_filter.mp hb).1)
  · intro v
    exact jsSortItems_filter_key opts.sortBy _ v
  · intro hall
    apply jsSortItems_of_ties
    intro a ha b hb
    have hza := hall a (List.mem_filter.mp ha).1
    have hzb := hall b (List.mem_filter.mp hb).1
    exact sortBefore_of_key_eq opts.sortBy (hza.trans hzb.symm) (by simp [hza, JNum.isReal])

theorem claim_C6_witness :
    (wEntryHotel ∈ transformData wArr wOpts) ∧
    (∀ b ∈ wArr, (numGet b wOpts.sortBy.field).isReal = true) ∧
    wEntryHotel.items.Pairwise (sortLeKey wOpts.sortBy) :=
  ⟨by decide, by decide,
    (claim_C6_sorted_stable wArr wOpts wEntryHotel (by decide)).1 (by decide)⟩

/-- C2 refuted: grouping by `price` over prices scanned in order 450, 120,
the result entries carry the keys `["120", "450"]` — not the first-encounter
order `["450", "120"]` the claim requires, because JS object property
enumeration sorts integer-like keys numerically. -/
theorem claim_C2_counterexample :
    ¬ ((transformData c2arr c2opts).map ResultEntry.key =
        firstSeenKeys (jsKeyOf "price") c2arr) := by decide

/-- C2 amended: entries of the field paths are concatenated in field-path
order; within one field path the entry keys are the first-encountered keys
reordered by JS object-property enumeration — keys that are canonical decimal
integers below `2^32 - 1` first, in ascending numeric order, then the
remaining keys in first-encounter order.  When no group key is such an
integer string, this is exactly the first-encounter order of the original
claim. -/
theorem claim_C2_amended_order (arr : List Booking) (opts : TransformOptions) :
    transformData arr opts = (normalizeGroupBy opts.groupBy).flatMap (pathEntries opts arr)
    ∧ ∀ g : String,
        (pathEntries opts arr g).map ResultEntry.key =
          jsKeyOrder (firstSeenKeys (jsKeyOf g) arr)
        ∧ ((∀ k ∈ firstSeenKeys (jsKeyOf g) arr, isArrayIndexStr k = false) →
            (pathEntries opts arr g).map ResultEntry.key =
              firstSeenKeys (jsKeyOf g) arr) := by
  refine ⟨rfl, fun g => ⟨?_, ?_⟩⟩
  · rw [map_key_pathEntries, map_fst_jsEntriesOrder, map_fst_lGroupBy]
    rfl
  · intro hnone
    rw [map_key_pathEntries, map_fst_jsEntriesOrder, map_fst_lGroupBy]
    have h1 : (firstSeenKeys (jsKeyOf g) arr).filter (fun k => isArrayIndexStr k) = [] :=
      List.filter_eq_nil_iff.mpr (fun k hk => by simp [hnone k hk])
    have h2 : (firstSeenKeys (jsKeyOf g) arr).filter (fun k => !isArrayIndexStr k) =
        firstSeenKeys (jsKeyOf g) arr :=
      List.filter_eq_self.mpr (fun k hk => by simp [hnone k hk])
    rw [h1, h2]
    simp

theorem claim_C2_witness :
    (∀ k ∈ firstSeenKeys (jsKeyOf "category") wArr, isArrayIndexStr k = false) ∧
    (pathEntries wOpts wArr "category").map ResultEntry.key =
      firstSeenKeys (jsKeyOf "category") wArr :=
  ⟨by decide, ((claim_C2_amended_order wArr wOpts).2 "category").2 (by decide)⟩
